import Mathlib

/-!
Verification of the edge-tts worker (src/workers.js): a shallow embedding of
the segmenter (`smartChunkText`), the SSML builder's sanitization step
(`getSsml`), the credential cache (`getEndpoint`), and the batch pipeline
(`getVoice` / `pipeChunksToStream` / `streamVoice`), together with theorems
settling the specification's claims about them.

Strings are modelled as `List Char` (one element per UTF-16 code unit of the
original for all characters appearing here, which are BMP characters), so
`List.length` coincides with JavaScript's `String.length`.
-/

namespace Workers

/-! ## Segmenter (`smartChunkText`, src/workers.js lines 264-284) -/

/-- The character class of the split pattern
`[.?!,;:\n。？！，；：\r]` used by `smartChunkText`. -/
def isSep (c : Char) : Bool :=
  c ∈ ['.', '?', '!', ',', ';', ':', '\n', '。', '？', '！', '，', '；', '：', '\r']

/-- JavaScript `String.prototype.trim` whitespace (the code points relevant
here; the full ECMAScript set of WhiteSpace and LineTerminator code points). -/
def isWs (c : Char) : Bool :=
  c ∈ [' ', '\t', '\n', '\r', '\u000B', '\u000C', '\u00A0', '\u1680',
       '\u2000', '\u2001', '\u2002', '\u2003', '\u2004', '\u2005', '\u2006',
       '\u2007', '\u2008', '\u2009', '\u200A', '\u2028', '\u2029', '\u202F',
       '\u205F', '\u3000', '\uFEFF']

/-- `String.prototype.trim`: drop whitespace from both ends. -/
def jsTrim (cs : List Char) : List Char :=
  ((cs.dropWhile isWs).reverse.dropWhile isWs).reverse

/-- Worker for `splitParts`: scans the text, grouping maximal runs of
separator / non-separator characters.  `cur` is the current run (reversed),
`m` is whether the current run is a separator run.  Mirrors the semantics of
JavaScript `text.split(re)` where `re` is a capture group over a
separator-class `+` pattern: the result alternates (possibly empty) text
pieces with separator runs, beginning and ending with a text piece. -/
def splitPartsAux : List Char → List Char → Bool → List (List Char)
  | [], cur, m => if m then [cur.reverse, []] else [cur.reverse]
  | c :: cs, cur, m =>
    if isSep c = m then splitPartsAux cs (c :: cur) m
    else cur.reverse :: splitPartsAux cs [c] (isSep c)

/-- `text.split(/([.?!,;:\n。？！，；：\r]+)/g)`: the list of parts the
segmenter's greedy loop consumes (text pieces and separator runs, in input
order; concatenating them restores the input). -/
def splitParts (cs : List Char) : List (List Char) :=
  splitPartsAux cs [] false

/-- One step of the greedy accumulation loop of `smartChunkText`: state is
`(chunks, currentChunk)`; a part is appended to the buffer when it fits,
otherwise the (trimmed, non-empty) buffer is flushed and the part starts a
new buffer. -/
def chunkStep (m : Nat) : List (List Char) × List Char → List Char →
    List (List Char) × List Char
  | (chunks, cur), part =>
    if cur.length + part.length ≤ m then (chunks, cur ++ part)
    else (if (jsTrim cur).isEmpty then chunks else chunks ++ [jsTrim cur], part)

/-- The boundary-aware pass of `smartChunkText`: fold the greedy step over
all parts, then flush the final buffer. -/
def boundaryChunks (text : List Char) (m : Nat) : List (List Char) :=
  let s := (splitParts text).foldl (chunkStep m) ([], [])
  if (jsTrim s.2).isEmpty then s.1 else s.1 ++ [jsTrim s.2]

/-- Worker for the fixed-width fallback: `fuel` bounds the number of
iterations of `for (let i = 0; i < text.length; i += maxChunkLength)`; a fuel
of `text.length` is enough whenever `maxChunkLength ≥ 1`. -/
def fixedSlicesAux (m : Nat) : Nat → List Char → List (List Char)
  | 0, _ => []
  | _, [] => []
  | fuel + 1, cs => cs.take m :: fixedSlicesAux m fuel (cs.drop m)

/-- The fallback slicing path of `smartChunkText`: consecutive substrings of
exactly `m` characters (last one shorter). -/
def fixedSlices (cs : List Char) (m : Nat) : List (List Char) :=
  fixedSlicesAux m cs.length cs

/-- Whether `smartChunkText` takes the fixed-width fallback path for this
input (boundary-aware pass produced nothing although the text is non-empty). -/
def fallbackTaken (text : List Char) (m : Nat) : Bool :=
  (boundaryChunks text m).isEmpty && !text.isEmpty

/-- `smartChunkText(text, maxChunkLength)` (src/workers.js lines 264-284):
boundary-aware greedy chunking, fixed-width fallback when that pass yields
nothing, final filter dropping zero-length chunks. -/
def smartChunkText (text : List Char) (m : Nat) : List (List Char) :=
  if text.isEmpty then []
  else
    let bc := boundaryChunks text m
    let cs := if bc.isEmpty then fixedSlices text m else bc
    cs.filter (fun c => 0 < c.length)

/-- Whitespace normalization: erase all whitespace characters.  Two texts are
"the same content" when they agree after this normalization. -/
def normalizeWs (cs : List Char) : List Char :=
  cs.filter (fun c => !isWs c)

/-! ## SSML builder (`getSsml`, src/workers.js lines 259-262) -/

/-- `str.replace(/c/g, r)` for a single character pattern: every occurrence
of `c` is replaced by the string `r`. -/
def jsReplaceChar (c : Char) (r : List Char) (cs : List Char) : List Char :=
  (cs.map (fun x => if x = c then r else [x])).flatten

/-- The sanitization step of `getSsml`:
`text.replace(/&/g, '&').replace(/</g, '<').replace(/>/g, '>')` — note that
the replacement strings in the source are the single characters `&`, `<`,
`>` themselves. -/
def sanitizedText (cs : List Char) : List Char :=
  jsReplaceChar '>' ['>'] (jsReplaceChar '<' ['<'] (jsReplaceChar '&' ['&'] cs))

/-! ## Credential cache (`getEndpoint`, src/workers.js lines 195-223) -/

/-- The fields of the endpoint object returned by the identity service that
the rest of the worker reads (`data.r`, `data.t`). -/
structure EndpointData where
  r : List Char
  t : List Char
deriving DecidableEq, Repr

/-- The module-level mutable cache
`let tokenInfo = { endpoint: null, token: null, expiredAt: null }`. -/
structure TokenInfo where
  endpoint : Option EndpointData
  token : Option (List Char)
  expiredAt : Option Int
deriving DecidableEq, Repr

/-- The initial cache state (all fields `null`). -/
def initialTokenInfo : TokenInfo := ⟨none, none, none⟩

/-- JavaScript truthiness of a possibly-null string (`null` and `""` are
falsy). -/
def truthyStr : Option (List Char) → Bool
  | none => false
  | some s => !s.isEmpty

/-- JavaScript truthiness of a possibly-null number (`null` and `0` are
falsy). -/
def truthyInt : Option Int → Bool
  | none => false
  | some n => n ≠ 0

/-- `TOKEN_REFRESH_BEFORE_EXPIRY = 5 * 60` (seconds). -/
def TOKEN_REFRESH_BEFORE_EXPIRY : Int := 5 * 60

/-- The guard
`tokenInfo.token && tokenInfo.expiredAt && now < tokenInfo.expiredAt - TOKEN_REFRESH_BEFORE_EXPIRY`:
the cached credential is present and still fresh.  `now` is
`Date.now() / 1000`, a rational number of seconds. -/
def cacheFresh (st : TokenInfo) (now : ℚ) : Bool :=
  truthyStr st.token && truthyInt st.expiredAt &&
    (match st.expiredAt with
     | some e => decide (now < ((e - TOKEN_REFRESH_BEFORE_EXPIRY : Int) : ℚ))
     | none => false)

/-- The outcome of the network exchange with the identity service, when it
is attempted: the endpoint object plus the expiry decoded from the token's
own JWT claims (`decodedJwt.exp`), or a thrown error. -/
structure FetchSuccess where
  data : EndpointData
  exp : Int
deriving DecidableEq, Repr

/-- `getEndpoint()` as a state transition: given the cached state, the
current time, and the (counterfactual if unused) result of the network
exchange, produce the returned value (`Except` for a thrown error; the
endpoint may be `null` in degenerate states), the new cached state, and
whether the network was touched.  Mirrors src/workers.js lines 198-223:
fresh cache → return the cached endpoint untouched; otherwise refresh; on
refresh success replace the whole cache and return the new data; on refresh
failure return the stale cached endpoint if a token is cached, else rethrow. -/
def getEndpoint (st : TokenInfo) (now : ℚ)
    (fetched : Except (List Char) FetchSuccess) :
    Except (List Char) (Option EndpointData) × TokenInfo × Bool :=
  if cacheFresh st now then
    (Except.ok st.endpoint, st, false)
  else
    match fetched with
    | Except.ok f =>
      (Except.ok (some f.data),
       { endpoint := some f.data, token := some f.data.t, expiredAt := some f.exp },
       true)
    | Except.error e =>
      if truthyStr st.token then (Except.ok st.endpoint, st, true)
      else (Except.error e, st, true)

/-! ## Batch pipeline (`getVoice`, `pipeChunksToStream`, `streamVoice`,
src/workers.js lines 122-172)

A synthesis call (`getAudioChunk`) is modelled as a function
`synth : α → Except ε β` from a chunk to its audio bytes or a failure.
`Promise.all` over a batch resolves with the per-chunk values in chunk-index
order (not completion order) and rejects as soon as any member rejects. -/

/-- The resolved value of `Promise.all(batch.map(synth))`: all per-chunk
results in chunk order, or a failure when any member fails. -/
def promiseAll (synth : α → Except ε β) : List α → Except ε (List β)
  | [] => Except.ok []
  | a :: as =>
    match synth a with
    | Except.error e => Except.error e
    | Except.ok b =>
      match promiseAll synth as with
      | Except.error e => Except.error e
      | Except.ok bs => Except.ok (b :: bs)

/-- Worker for `toBatches`; `fuel = l.length` suffices when `conc ≥ 1`. -/
def toBatchesAux (conc : Nat) : Nat → List α → List (List α)
  | 0, _ => []
  | _, [] => []
  | fuel + 1, l => l.take conc :: toBatchesAux conc fuel (l.drop conc)

/-- The batching performed by the loop
`for (let i = 0; i < chunks.length; i += concurrency) { const batch = chunks.slice(i, i + concurrency); ... }`:
consecutive slices of length `conc` (last one shorter). -/
def toBatches (conc : Nat) (l : List α) : List (List α) :=
  toBatchesAux conc l.length l

/-- One resolution event of the `Promise.all` slot machine: promise `i` of
the batch completes, writing its value into slot `i` (or rejecting the whole
`Promise.all`). -/
def schedStep (batch : List α) (synth : α → Except ε β)
    (st : Except ε (List (Option β))) (i : Nat) : Except ε (List (Option β)) :=
  match st with
  | Except.error e => Except.error e
  | Except.ok slots =>
    match batch.get? i with
    | none => Except.ok slots
    | some a =>
      match synth a with
      | Except.error e => Except.error e
      | Except.ok v => Except.ok (slots.set i (some v))

/-- `Promise.all(batch.map(synth))` under an explicit completion schedule
`order` (the real-time order in which the batch's promises settle): slots are
filled in completion order, and the final value is read out by slot index.
When `order` settles every promise of the batch, the result is independent of
`order`. -/
def promiseAllSched (synth : α → Except ε β) (batch : List α)
    (order : List Nat) : Except ε (List β) :=
  match order.foldl (schedStep batch synth)
      (Except.ok (List.replicate batch.length (none : Option β))) with
  | Except.error e => Except.error e
  | Except.ok slots => Except.ok (slots.filterMap id)

/-- The sequential batch loop of `getVoice`, under explicit per-batch
completion schedules: process batches in order, `Promise.all` each batch,
and push the resolved blobs (`allAudioBlobs.push(...audioBlobs)`). -/
def runBatchesSched (synth : α → Except ε β) :
    List (List α) → List (List Nat) → Except ε (List β)
  | [], _ => Except.ok []
  | b :: bs, os =>
    match promiseAllSched synth b (os.headD []) with
    | Except.error e => Except.error e
    | Except.ok vals =>
      match runBatchesSched synth bs os.tail with
      | Except.error e => Except.error e
      | Except.ok rest => Except.ok (vals ++ rest)

/-- The payload of `getVoice`'s successful response: the concatenation
(`new Blob(allAudioBlobs)`) of all per-chunk audio byte strings collected by
the batch loop, under explicit completion schedules. -/
def getVoicePayload (synth : α → Except ε (List Nat)) (chunks : List α)
    (conc : Nat) (orders : List (List Nat)) : Except ε (List Nat) :=
  match runBatchesSched synth (toBatches conc chunks) orders with
  | Except.error e => Except.error e
  | Except.ok blobs => Except.ok blobs.flatten

/-- The sequential batch loop shared by `getVoice` and `pipeChunksToStream`,
with `Promise.all` resolved by chunk index (its value is schedule-independent,
see `runBatchesSched`): the ordered list of all per-chunk results, or the
failure that aborted the loop. -/
def runBatchesP (synth : α → Except ε β) : List (List α) → Except ε (List β)
  | [] => Except.ok []
  | b :: bs =>
    match promiseAll synth b with
    | Except.error e => Except.error e
    | Except.ok vals =>
      match runBatchesP synth bs with
      | Except.error e => Except.error e
      | Except.ok rest => Except.ok (vals ++ rest)

/-- Observable events of the streaming path, in program order. -/
inductive Ev (α β : Type _)
  | dispatch (batch : List α)
  | write (blob : β)
  | abort
  | close
  | respond
deriving DecidableEq, Repr

/-- The events of `pipeChunksToStream`'s batch loop (before the `finally`):
each batch is dispatched, awaited, and its blobs written in chunk order; a
failing batch is dispatched, then the writer is aborted and the loop stops.
Returns the event list and whether the loop completed without error. -/
def pipeEvents (synth : α → Except ε β) : List (List α) → List (Ev α β) × Bool
  | [] => ([], true)
  | b :: bs =>
    match promiseAll synth b with
    | Except.error _ => ([Ev.dispatch b, Ev.abort], false)
    | Except.ok vals =>
      let rest := pipeEvents synth bs
      (Ev.dispatch b :: (vals.map Ev.write ++ rest.1), rest.2)

/-- `pipeChunksToStream(writer, chunks, concurrency, ...)`: the batch loop's
events followed by the unconditional `writer.close()` of the `finally`
block, plus the success flag. -/
def pipeChunksToStreamTrace (synth : α → Except ε β) (chunks : List α)
    (conc : Nat) : List (Ev α β) × Bool :=
  let r := pipeEvents synth (toBatches conc chunks)
  (r.1 ++ [Ev.close], r.2)

/-- `streamVoice(textChunks, concurrency, ...)`: it `await`s the whole of
`pipeChunksToStream` and only then constructs the streaming `Response`
(src/workers.js lines 125-127), so the `respond` event follows the entire
pipeline trace; on failure an error response is returned instead (no
`respond` event). -/
def streamVoiceTrace (synth : α → Except ε β) (chunks : List α)
    (conc : Nat) : List (Ev α β) :=
  let r := pipeChunksToStreamTrace synth chunks conc
  r.1 ++ (if r.2 then [Ev.respond] else [])

/-- The batches dispatched in a trace, in dispatch order. -/
def dispatchedBatches : List (Ev α β) → List (List α)
  | [] => []
  | Ev.dispatch b :: t => b :: dispatchedBatches t
  | _ :: t => dispatchedBatches t

/-- The loop header `for (let i = 0; i < len; i += conc)` common to
`getVoice` and `pipeChunksToStream`, with the unvalidated `concurrency`
value as an integer: from counter `i`, with `fuel` remaining iterations
allowed, return the batch start indices if the loop exits within `fuel`
iterations, and `none` if it is still running. -/
def batchLoopFuel (len : Nat) (conc : Int) : Nat → Int → Option (List Int)
  | 0, i => if i < (len : Int) then none else some []
  | fuel + 1, i =>
    if i < (len : Int) then
      match batchLoopFuel len conc fuel (i + conc) with
      | none => none
      | some r => some (i :: r)
    else some []

/-- One step of the pure slot-filling process underlying `promiseAllSched`
once every scheduled promise is known to succeed with the values `vb`:
completion `i` writes the value at position `i` of `vb` into slot `i`. -/
def setSlot (vb : List β) (s : List (Option β)) (i : Nat) : List (Option β) :=
  match vb.get? i with
  | some v => s.set i (some v)
  | none => s

/-- The pure slot-filling process underlying `promiseAllSched`: the slots
written by a whole completion schedule. -/
def setSlots (vb : List β) (slots : List (Option β)) (order : List Nat) :
    List (Option β) :=
  order.foldl (setSlot vb) slots

/-- A concrete always-succeeding synthesis stub (audio = one byte holding
the chunk's length), used to instantiate the pipeline theorems. -/
def synthLen : List Char → Except Unit (List Nat) :=
  fun s => Except.ok [s.length]

/-- A concrete synthesis stub failing exactly on the chunk `"b"`, used to
instantiate the fail-fast theorems. -/
def synthFailB : List Char → Except Unit (List Nat) :=
  fun s => if s = ['b'] then Except.error () else Except.ok [s.length]

/-! ## Lemmas about the segmenter -/

theorem splitPartsAux_flatten (cs : List Char) : ∀ (cur : List Char) (m : Bool),
    (splitPartsAux cs cur m).flatten = cur.reverse ++ cs := by
  induction cs with
  | nil =>
    intro cur m
    cases m <;> simp [splitPartsAux]
  | cons c cs ih =>
    intro cur m
    by_cases h : isSep c = m
    · simp [splitPartsAux, h, ih]
    · simp [splitPartsAux, h, ih]

theorem splitParts_flatten (cs : List Char) : (splitParts cs).flatten = cs := by
  simpa using splitPartsAux_flatten cs [] false

theorem filter_dropWhile (p q : Char → Bool) (hpq : ∀ c, q c = true → p c = false) :
    ∀ cs : List Char, (cs.dropWhile q).filter p = cs.filter p := by
  intro cs
  induction cs with
  | nil => rfl
  | cons c cs ih =>
    cases hq : q c with
    | true => simp [List.dropWhile_cons, hq, ih, List.filter_cons, hpq c hq]
    | false => simp [List.dropWhile_cons, hq]

theorem jsTrim_filter (p : Char → Bool) (hpq : ∀ c, isWs c = true → p c = false)
    (cs : List Char) : (jsTrim cs).filter p = cs.filter p := by
  unfold jsTrim
  rw [List.filter_reverse, filter_dropWhile p isWs hpq, List.filter_reverse,
    List.reverse_reverse, filter_dropWhile p isWs hpq]

theorem normalizeWs_jsTrim (cs : List Char) : normalizeWs (jsTrim cs) = normalizeWs cs :=
  jsTrim_filter _ (fun c h => by simp [h]) cs

theorem normalizeWs_append (a b : List Char) :
    normalizeWs (a ++ b) = normalizeWs a ++ normalizeWs b := by
  simp [normalizeWs]

theorem jsTrim_length_le (cs : List Char) : (jsTrim cs).length ≤ cs.length := by
  unfold jsTrim
  calc ((cs.dropWhile isWs).reverse.dropWhile isWs).reverse.length
      = ((cs.dropWhile isWs).reverse.dropWhile isWs).length := List.length_reverse _
    _ ≤ (cs.dropWhile isWs).reverse.length := (List.dropWhile_sublist isWs).length_le
    _ = (cs.dropWhile isWs).length := List.length_reverse _
    _ ≤ cs.length := (List.dropWhile_sublist isWs).length_le

theorem jsTrim_eq_nil_iff (cs : List Char) : jsTrim cs = [] ↔ normalizeWs cs = [] := by
  constructor
  · intro h
    rw [← normalizeWs_jsTrim, h]
    rfl
  · intro h
    have hall : ∀ c ∈ cs, isWs c = true := by
      intro c hc
      have := (List.filter_eq_nil_iff.mp h) c hc
      simpa using this
    have hdrop : cs.dropWhile isWs = [] := List.dropWhile_eq_nil_iff.mpr hall
    simp [jsTrim, hdrop]

theorem chunkStep_fold_content (m : Nat) :
    ∀ (ps : List (List Char)) (chunks : List (List Char)) (cur : List Char),
      normalizeWs ((ps.foldl (chunkStep m) (chunks, cur)).1.flatten ++
          (ps.foldl (chunkStep m) (chunks, cur)).2) =
        normalizeWs (chunks.flatten ++ (cur ++ ps.flatten)) := by
  intro ps
  induction ps with
  | nil =>
    intro chunks cur
    simp
  | cons part ps ih =>
    intro chunks cur
    by_cases hfit : cur.length + part.length ≤ m
    · rw [List.foldl_cons]
      show normalizeWs ((ps.foldl (chunkStep m) (chunkStep m (chunks, cur) part)).1.flatten ++ _) = _
      rw [chunkStep, if_pos hfit, ih]
      simp [normalizeWs_append, List.append_assoc]
    · rw [List.foldl_cons]
      show normalizeWs ((ps.foldl (chunkStep m) (chunkStep m (chunks, cur) part)).1.flatten ++ _) = _
      rw [chunkStep, if_neg hfit]
      by_cases hemp : (jsTrim cur).isEmpty
      · have hnil : jsTrim cur = [] := by simpa [List.isEmpty_iff] using hemp
        have hcur : normalizeWs cur = [] := (jsTrim_eq_nil_iff cur).mp hnil
        simp only [hemp, if_pos, ih]
        simp [normalizeWs_append, hcur]
      · simp only [hemp, if_neg, Bool.false_eq_true, not_false_iff, ih]
        simp [normalizeWs_append, normalizeWs_jsTrim]

theorem boundaryChunks_content (text : List Char) (m : Nat) :
    normalizeWs (boundaryChunks text m).flatten = normalizeWs text := by
  unfold boundaryChunks
  have h := chunkStep_fold_content m (splitParts text) [] []
  simp only [List.flatten_nil, List.nil_append, splitParts_flatten] at h
  set s := (splitParts text).foldl (chunkStep m) ([], []) with hs
  by_cases hemp : (jsTrim s.2).isEmpty
  · have hnil : jsTrim s.2 = [] := by simpa [List.isEmpty_iff] using hemp
    have hcur : normalizeWs s.2 = [] := (jsTrim_eq_nil_iff s.2).mp hnil
    rw [normalizeWs_append, hcur, List.append_nil] at h
    simpa [hemp] using h
  · rw [normalizeWs_append] at h
    simp only [hemp, if_neg, Bool.false_eq_true, not_false_iff]
    simpa [normalizeWs_append, normalizeWs_jsTrim] using h

theorem fixedSlicesAux_flatten (m : Nat) (hm : 0 < m) :
    ∀ (fuel : Nat) (cs : List Char), cs.length ≤ fuel →
      (fixedSlicesAux m fuel cs).flatten = cs := by
  intro fuel
  induction fuel with
  | zero =>
    intro cs h
    have : cs = [] := List.length_eq_zero.mp (Nat.le_zero.mp h)
    subst this
    rfl
  | succ fuel ih =>
    intro cs h
    cases cs with
    | nil => rfl
    | cons c cs =>
      show (List.take m (c :: cs) :: fixedSlicesAux m fuel (List.drop m (c :: cs))).flatten = _
      rw [List.flatten_cons, ih (List.drop m (c :: cs))
        (by rw [List.length_drop]; omega), List.take_append_drop]

theorem fixedSlices_flatten (cs : List Char) (m : Nat) (hm : 0 < m) :
    (fixedSlices cs m).flatten = cs :=
  fixedSlicesAux_flatten m hm cs.length cs le_rfl

theorem filter_pos_flatten (l : List (List Char)) :
    (l.filter (fun c => 0 < c.length)).flatten = l.flatten := by
  induction l with
  | nil => rfl
  | cons c l ih =>
    by_cases hc : 0 < c.length
    · simp [List.filter_cons, hc, ih]
    · have : c = [] := List.length_eq_zero.mp (by omega)
      subst this
      simp [List.filter_cons, ih]

/-- Claim C4: for every input text and every `maxLength > 0`, the
concatenation of the segmenter's output chunks, after whitespace
normalization, equals the whitespace-normalized input: no non-whitespace
character is lost, duplicated, or reordered across chunk boundaries, and
chunk order equals input order. -/
theorem smartChunkText_content (text : List Char) (m : Nat) (hm : 0 < m) :
    normalizeWs (smartChunkText text m).flatten = normalizeWs text := by
  unfold smartChunkText
  by_cases ht : text.isEmpty
  · have : text = [] := by simpa [List.isEmpty_iff] using ht
    subst this
    rfl
  · simp only [ht, Bool.false_eq_true, if_neg, not_false_iff]
    by_cases hbc : (boundaryChunks text m).isEmpty
    · simp only [hbc, if_pos]
      rw [filter_pos_flatten, fixedSlices_flatten text m hm]
    · simp only [hbc, Bool.false_eq_true, if_neg, not_false_iff]
      rw [filter_pos_flatten, boundaryChunks_content]

/-- Witness for C4 at a concrete input. -/
theorem smartChunkText_content_witness :
    normalizeWs (smartChunkText ['a', ' ', 'b'] 1).flatten =
      normalizeWs ['a', ' ', 'b'] :=
  smartChunkText_content ['a', ' ', 'b'] 1 (by decide)

theorem chunkStep_fold_size (m : Nat) (L : List (List Char)) :
    ∀ (ps : List (List Char)) (chunks : List (List Char)) (cur : List Char),
      (∀ p ∈ ps, p ∈ L) →
      (∀ c ∈ chunks, c.length ≤ m ∨ ∃ p ∈ L, c = jsTrim p ∧ m < p.length) →
      (cur.length ≤ m ∨ cur ∈ L) →
      (∀ c ∈ (ps.foldl (chunkStep m) (chunks, cur)).1,
          c.length ≤ m ∨ ∃ p ∈ L, c = jsTrim p ∧ m < p.length) ∧
      ((ps.foldl (chunkStep m) (chunks, cur)).2.length ≤ m ∨
        (ps.foldl (chunkStep m) (chunks, cur)).2 ∈ L) := by
  intro ps
  induction ps with
  | nil =>
    intro chunks cur _ hchunks hcur
    exact ⟨hchunks, hcur⟩
  | cons part ps ih =>
    intro chunks cur hp hchunks hcur
    rw [List.foldl_cons]
    by_cases hfit : cur.length + part.length ≤ m
    · rw [show chunkStep m (chunks, cur) part = (chunks, cur ++ part) by
        rw [chunkStep, if_pos hfit]]
      exact ih chunks (cur ++ part) (fun p hp1 => hp p (List.mem_cons_of_mem _ hp1))
        hchunks (Or.inl (by rw [List.length_append]; omega))
    · rw [show chunkStep m (chunks, cur) part =
          ((if (jsTrim cur).isEmpty then chunks else chunks ++ [jsTrim cur]), part) by
        rw [chunkStep, if_neg hfit]]
      have hpart : part ∈ L := hp part (List.mem_cons_self _ _)
      by_cases hemp : (jsTrim cur).isEmpty
      · rw [if_pos hemp]
        exact ih chunks part (fun p hp1 => hp p (List.mem_cons_of_mem _ hp1))
          hchunks (Or.inr hpart)
      · rw [if_neg hemp]
        refine ih (chunks ++ [jsTrim cur]) part
          (fun p hp1 => hp p (List.mem_cons_of_mem _ hp1)) ?_ (Or.inr hpart)
        intro c hc
        rcases List.mem_append.mp hc with hc | hc
        · exact hchunks c hc
        · have hceq : c = jsTrim cur := by simpa using hc
          subst hceq
          by_cases hle : cur.length ≤ m
          · exact Or.inl (Nat.le_trans (jsTrim_length_le cur) hle)
          · rcases hcur with hcur | hcur
            · omega
            · exact Or.inr ⟨cur, hcur, rfl, by omega⟩

theorem boundaryChunks_size (text : List Char) (m : Nat) :
    ∀ c ∈ boundaryChunks text m,
      c.length ≤ m ∨ ∃ p ∈ splitParts text, c = jsTrim p ∧ m < p.length := by
  unfold boundaryChunks
  have h := chunkStep_fold_size m (splitParts text) (splitParts text) [] []
    (fun p hp => hp) (by intro c hc; cases hc) (Or.inl (Nat.zero_le m))
  set s := (splitParts text).foldl (chunkStep m) ([], []) with hs
  by_cases hemp : (jsTrim s.2).isEmpty
  · simpa [hemp] using h.1
  · simp only [hemp, Bool.false_eq_true, if_neg, not_false_iff]
    intro c hc
    rcases List.mem_append.mp hc with hc | hc
    · exact h.1 c hc
    · have hceq : c = jsTrim s.2 := by simpa using hc
      subst hceq
      by_cases hle : s.2.length ≤ m
      · exact Or.inl (Nat.le_trans (jsTrim_length_le s.2) hle)
      · rcases h.2 with h2 | h2
        · omega
        · exact Or.inr ⟨s.2, h2, rfl, by omega⟩

theorem fixedSlicesAux_size (m : Nat) :
    ∀ (fuel : Nat) (cs : List Char), ∀ c ∈ fixedSlicesAux m fuel cs, c.length ≤ m := by
  intro fuel
  induction fuel with
  | zero => intro cs c hc; simp [fixedSlicesAux] at hc
  | succ fuel ih =>
    intro cs c hc
    cases cs with
    | nil => simp [fixedSlicesAux] at hc
    | cons x xs =>
      rcases List.mem_cons.mp hc with hc | hc
      · subst hc; exact List.length_take_le m _
      · exact ih _ c hc

/-- Counterexample to claim C3 as stated: on input `"aaa"` with
`maxLength = 2`, the boundary-aware path (not the fallback) returns the
single chunk `"aaa"` of length `3 > 2`. -/
theorem smartChunkText_oversized_no_fallback :
    smartChunkText ['a', 'a', 'a'] 2 = [['a', 'a', 'a']] ∧
    fallbackTaken ['a', 'a', 'a'] 2 = false ∧
    2 < (['a', 'a', 'a'] : List Char).length := by
  decide

/-- Claim C3 (amended): for every input and every `maxLength > 0`, every
chunk returned by the segmenter has length `≤ maxLength` except chunks that
are the trim of a single separator-delimited piece of the input whose own
length exceeds `maxLength`; in particular every chunk of the fixed-width
fallback path has length `≤ maxLength`. -/
theorem smartChunkText_chunk_size (text : List Char) (m : Nat) (_hm : 0 < m) :
    ∀ c ∈ smartChunkText text m,
      c.length ≤ m ∨ ∃ p ∈ splitParts text, c = jsTrim p ∧ m < p.length := by
  unfold smartChunkText
  by_cases ht : text.isEmpty
  · intro c hc
    simp [ht] at hc
  · simp only [ht, Bool.false_eq_true, if_neg, not_false_iff]
    by_cases hbc : (boundaryChunks text m).isEmpty
    · simp only [hbc, if_pos]
      intro c hc
      exact Or.inl (fixedSlicesAux_size m text.length text c (List.mem_of_mem_filter hc))
    · simp only [hbc, Bool.false_eq_true, if_neg, not_false_iff]
      intro c hc
      exact boundaryChunks_size text m c (List.mem_of_mem_filter hc)

/-- Witness for amended C3 at a concrete input: the oversized chunk `"aaa"`
is the trim of an unsplittable piece longer than the limit. -/
theorem smartChunkText_chunk_size_witness :
    (['a', 'a', 'a'] : List Char).length ≤ 2 ∨
      ∃ p ∈ splitParts ['a', 'a', 'a'], ['a', 'a', 'a'] = jsTrim p ∧ 2 < p.length :=
  smartChunkText_chunk_size ['a', 'a', 'a'] 2 (by decide) ['a', 'a', 'a'] (by decide)

theorem chunkStep_fold_nonws (m : Nat) :
    ∀ (ps : List (List Char)) (chunks : List (List Char)) (cur : List Char),
      (∀ c ∈ chunks, normalizeWs c ≠ []) →
      ∀ c ∈ (ps.foldl (chunkStep m) (chunks, cur)).1, normalizeWs c ≠ [] := by
  intro ps
  induction ps with
  | nil => intro chunks cur h; exact h
  | cons part ps ih =>
    intro chunks cur hchunks
    rw [List.foldl_cons]
    by_cases hfit : cur.length + part.length ≤ m
    · rw [show chunkStep m (chunks, cur) part = (chunks, cur ++ part) by
        rw [chunkStep, if_pos hfit]]
      exact ih chunks (cur ++ part) hchunks
    · rw [show chunkStep m (chunks, cur) part =
          ((if (jsTrim cur).isEmpty then chunks else chunks ++ [jsTrim cur]), part) by
        rw [chunkStep, if_neg hfit]]
      by_cases hemp : (jsTrim cur).isEmpty
      · rw [if_pos hemp]
        exact ih chunks part hchunks
      · rw [if_neg hemp]
        refine ih (chunks ++ [jsTrim cur]) part ?_
        intro c hc
        rcases List.mem_append.mp hc with hc | hc
        · exact hchunks c hc
        · have hceq : c = jsTrim cur := by simpa using hc
          subst hceq
          have htr : jsTrim cur ≠ [] := by
            intro h
            rw [h] at hemp
            exact hemp rfl
          rw [normalizeWs_jsTrim]
          intro h
          exact htr ((jsTrim_eq_nil_iff cur).mpr h)

theorem boundaryChunks_nonws (text : List Char) (m : Nat) :
    ∀ c ∈ boundaryChunks text m, normalizeWs c ≠ [] := by
  unfold boundaryChunks
  have h := chunkStep_fold_nonws m (splitParts text) [] []
    (by intro c hc; cases hc)
  set s := (splitParts text).foldl (chunkStep m) ([], []) with hs
  by_cases hemp : (jsTrim s.2).isEmpty
  · simpa [hemp] using h
  · simp only [hemp, Bool.false_eq_true, if_neg, not_false_iff]
    intro c hc
    rcases List.mem_append.mp hc with hc | hc
    · exact h c hc
    · have hceq : c = jsTrim s.2 := by simpa using hc
      subst hceq
      have htr : jsTrim s.2 ≠ [] := by
        intro h1
        rw [h1] at hemp
        exact hemp rfl
      rw [normalizeWs_jsTrim]
      intro h1
      exact htr ((jsTrim_eq_nil_iff s.2).mpr h1)

/-- Counterexample to claim C9 as stated: on the all-whitespace input
`"   "` the fallback path returns the single chunk `"   "`, which is empty
after trimming. -/
theorem smartChunkText_whitespace_only_chunk :
    smartChunkText [' ', ' ', ' '] 300 = [[' ', ' ', ' ']] ∧
    jsTrim [' ', ' ', ' '] = [] := by
  decide

/-- Claim C9 (amended): every chunk produced by the segmenter is non-empty
(positive length — the final filter drops zero-length chunks); on the
boundary-aware path every chunk is moreover non-empty after trimming, but
the fallback path can emit whitespace-only chunks. -/
theorem smartChunkText_chunks_nonempty (text : List Char) (m : Nat) :
    (∀ c ∈ smartChunkText text m, 0 < c.length) ∧
    ((boundaryChunks text m).isEmpty = false →
      ∀ c ∈ smartChunkText text m, jsTrim c ≠ []) := by
  constructor
  · intro c hc
    unfold smartChunkText at hc
    by_cases ht : text.isEmpty
    · simp [ht] at hc
    · simp only [ht, Bool.false_eq_true, if_neg, not_false_iff] at hc
      have := List.of_mem_filter hc
      simpa using this
  · intro hbc c hc
    unfold smartChunkText at hc
    by_cases ht : text.isEmpty
    · simp [ht] at hc
    · simp only [ht, Bool.false_eq_true, if_neg, not_false_iff] at hc
      rw [hbc] at hc
      simp only [Bool.false_eq_true, if_neg, not_false_iff] at hc
      have hmem : c ∈ boundaryChunks text m := List.mem_of_mem_filter hc
      have := boundaryChunks_nonws text m c hmem
      intro h
      exact this ((jsTrim_eq_nil_iff c).mp h)

/-- Witness for amended C9 at a concrete input. -/
theorem smartChunkText_chunks_nonempty_witness :
    0 < (['a'] : List Char).length ∧ jsTrim ['a'] ≠ [] :=
  ⟨(smartChunkText_chunks_nonempty ['a'] 1).1 ['a'] (by decide),
   (smartChunkText_chunks_nonempty ['a'] 1).2 (by decide) ['a'] (by decide)⟩

/-! ## Lemmas about the SSML sanitization -/

theorem jsReplaceChar_self (c : Char) (cs : List Char) : jsReplaceChar c [c] cs = cs := by
  induction cs with
  | nil => rfl
  | cons x xs ih =>
    show (if x = c then [c] else [x]) ++ (xs.map _).flatten = x :: xs
    by_cases h : x = c
    · subst h
      simpa [jsReplaceChar] using ih
    · simpa [h, jsReplaceChar] using ih

/-- Claim C6 is violated by the code: the `replace` calls of `getSsml`
substitute each of `&`, `<`, `>` by itself, so the sanitization is the
identity and the text embedded in the SSML body still contains all three
characters unescaped — shown concretely on the failing input `"<"`. -/
theorem sanitizedText_identity :
    (∀ cs : List Char, sanitizedText cs = cs) ∧
    sanitizedText ['<'] = ['<'] ∧ '<' ∈ sanitizedText ['<'] ∧
    sanitizedText ['&', '<', '>'] = ['&', '<', '>'] := by
  refine ⟨fun cs => ?_, by decide, by decide, by decide⟩
  unfold sanitizedText
  rw [jsReplaceChar_self, jsReplaceChar_self, jsReplaceChar_self]

/-! ## Lemmas about the credential cache -/

/-- Claim C7: with a cached credential present (truthy token and expiry) and
the current time strictly before `expiresAt` minus the 5-minute refresh
margin, `getEndpoint` returns the cached endpoint unchanged, leaves the
cache untouched, and performs no network call — whatever the (unused)
network outcome would have been. -/
theorem getEndpoint_cached_fresh (st : TokenInfo) (now : ℚ) (e : Int)
    (tk : List Char) (fetched : Except (List Char) FetchSuccess)
    (h1 : st.token = some tk) (h2 : tk.isEmpty = false)
    (h3 : st.expiredAt = some e) (h4 : e ≠ 0)
    (h5 : now < ((e - TOKEN_REFRESH_BEFORE_EXPIRY : Int) : ℚ)) :
    getEndpoint st now fetched = (Except.ok st.endpoint, st, false) := by
  have h5' : now < (e : ℚ) - (TOKEN_REFRESH_BEFORE_EXPIRY : ℚ) := by
    exact_mod_cast h5
  have hc : cacheFresh st now = true := by
    simp [cacheFresh, h1, h3, truthyStr, truthyInt, h2, h4, h5']
  simp [getEndpoint, hc]

/-- Witness for C7 at a concrete state and time. -/
theorem getEndpoint_cached_fresh_witness :
    getEndpoint ⟨some ⟨['r'], ['t']⟩, some ['t'], some 1000⟩ 0 (Except.error ['x']) =
      (Except.ok (some ⟨['r'], ['t']⟩), ⟨some ⟨['r'], ['t']⟩, some ['t'], some 1000⟩,
        false) :=
  getEndpoint_cached_fresh _ 0 1000 ['t'] _ rfl (by decide) rfl (by decide) (by decide)

/-- Claim C8: when the refresh attempt fails, the cached state is never
mutated; if a cached token exists (even stale) the cached endpoint is
returned, and if no cached token exists the failure propagates as an error. -/
theorem getEndpoint_refresh_failure (st : TokenInfo) (now : ℚ) (e : List Char) :
    (getEndpoint st now (Except.error e)).2.1 = st ∧
    (truthyStr st.token = true →
      (getEndpoint st now (Except.error e)).1 = Except.ok st.endpoint) ∧
    (truthyStr st.token = false →
      (getEndpoint st now (Except.error e)).1 = Except.error e) := by
  by_cases hc : cacheFresh st now
  · have htk : truthyStr st.token = true := by
      have := hc
      unfold cacheFresh at this
      exact (Bool.and_eq_true _ _).mp ((Bool.and_eq_true _ _).mp this).1 |>.1
    rw [getEndpoint, if_pos hc]
    refine ⟨rfl, fun _ => rfl, fun h => ?_⟩
    rw [htk] at h
    cases h
  · rw [getEndpoint, if_neg hc]
    cases htk : truthyStr st.token <;> simp [htk]

/-- Witness for C8 at a concrete state (cached stale token present). -/
theorem getEndpoint_refresh_failure_witness :
    (getEndpoint ⟨some ⟨['r'], ['t']⟩, some ['t'], some 10⟩ 100 (Except.error ['x'])).2.1 =
      (⟨some ⟨['r'], ['t']⟩, some ['t'], some 10⟩ : TokenInfo) ∧
    (getEndpoint ⟨some ⟨['r'], ['t']⟩, some ['t'], some 10⟩ 100 (Except.error ['x'])).1 =
      Except.ok (some ⟨['r'], ['t']⟩) :=
  ⟨(getEndpoint_refresh_failure ⟨some ⟨['r'], ['t']⟩, some ['t'], some 10⟩ 100 ['x']).1,
   (getEndpoint_refresh_failure ⟨some ⟨['r'], ['t']⟩, some ['t'], some 10⟩ 100 ['x']).2.1
     (by decide)⟩

/-! ## Lemmas about the batch loop header (termination) -/

theorem batchLoopFuel_none_of_nonpos (len : Nat) (conc : Int) (hc : conc ≤ 0)
    (hlen : 0 < len) : ∀ (fuel : Nat) (i : Int), i ≤ 0 →
    batchLoopFuel len conc fuel i = none := by
  intro fuel
  induction fuel with
  | zero =>
    intro i hi
    have : i < (len : Int) := by omega
    simp [batchLoopFuel, this]
  | succ fuel ih =>
    intro i hi
    have hlt : i < (len : Int) := by omega
    rw [batchLoopFuel, if_pos hlt, ih (i + conc) (by omega)]

theorem batchLoopFuel_some_of_pos (len : Nat) (conc : Int) (hc : 1 ≤ conc) :
    ∀ (fuel : Nat) (i : Int), (len : Int) ≤ i + fuel →
    (batchLoopFuel len conc fuel i).isSome = true := by
  intro fuel
  induction fuel with
  | zero =>
    intro i hi
    have : ¬ i < (len : Int) := by omega
    simp [batchLoopFuel, this]
  | succ fuel ih =>
    intro i hi
    by_cases hlt : i < (len : Int)
    · rw [batchLoopFuel, if_pos hlt]
      have := ih (i + conc) (by omega)
      cases h : batchLoopFuel len conc fuel (i + conc) with
      | none => rw [h] at this; cases this
      | some r => simp
    · simp [batchLoopFuel, hlt]

/-- Claim C10: the batch loop
`for (let i = 0; i < chunks.length; i += concurrency)` shared by `getVoice`
and `pipeChunksToStream` terminates (some finite fuel suffices) if and only
if the chunk list is empty or the (unvalidated, integer-valued) concurrency
is at least 1; for a non-empty chunk list and concurrency ≤ 0 it runs
forever. -/
theorem batchLoop_terminates_iff (chunks : List (List Char)) (conc : Int) :
    (∃ fuel, (batchLoopFuel chunks.length conc fuel 0).isSome = true) ↔
      (chunks = [] ∨ 1 ≤ conc) := by
  constructor
  · intro h
    rcases h with ⟨fuel, hf⟩
    by_contra hcon
    push_neg at hcon
    rcases hcon with ⟨hne, hlt⟩
    have hlen : 0 < chunks.length := List.length_pos.mpr hne
    rw [batchLoopFuel_none_of_nonpos chunks.length conc (by omega) hlen fuel 0
      le_rfl] at hf
    cases hf
  · intro h
    rcases h with h | h
    · subst h
      exact ⟨0, by simp [batchLoopFuel]⟩
    · exact ⟨chunks.length,
        batchLoopFuel_some_of_pos chunks.length conc h chunks.length 0 (by omega)⟩

/-! ## Lemmas about `Promise.all` and the buffered batch pipeline -/

theorem promiseAll_ok_length (synth : α → Except ε β) :
    ∀ (l : List α) (vs : List β), promiseAll synth l = Except.ok vs →
      vs.length = l.length := by
  intro l
  induction l with
  | nil =>
    intro vs h
    cases h
    rfl
  | cons x xs ih =>
    intro vs h
    rw [promiseAll] at h
    cases hx : synth x with
    | error e => rw [hx] at h; cases h
    | ok b =>
      rw [hx] at h
      cases hr : promiseAll synth xs with
      | error e => rw [hr] at h; cases h
      | ok bs =>
        rw [hr] at h
        cases h
        simp [ih bs hr]

theorem promiseAll_ok_get? (synth : α → Except ε β) :
    ∀ (l : List α) (vs : List β), promiseAll synth l = Except.ok vs →
      ∀ (i : Nat) (a : α), l.get? i = some a →
        ∃ v, synth a = Except.ok v ∧ vs.get? i = some v := by
  intro l
  induction l with
  | nil =>
    intro vs _ i a hi
    cases hi
  | cons x xs ih =>
    intro vs h i a hi
    rw [promiseAll] at h
    cases hx : synth x with
    | error e => rw [hx] at h; cases h
    | ok b =>
      rw [hx] at h
      cases hr : promiseAll synth xs with
      | error e => rw [hr] at h; cases h
      | ok bs =>
        rw [hr] at h
        cases h
        cases i with
        | zero =>
          cases hi
          exact ⟨b, hx, rfl⟩
        | succ i => exact ih bs hr i a hi

theorem promiseAll_append (synth : α → Except ε β) :
    ∀ (l1 l2 : List α) (vs : List β),
      promiseAll synth (l1 ++ l2) = Except.ok vs →
      ∃ v1 v2, promiseAll synth l1 = Except.ok v1 ∧
        promiseAll synth l2 = Except.ok v2 ∧ vs = v1 ++ v2 := by
  intro l1
  induction l1 with
  | nil =>
    intro l2 vs h
    exact ⟨[], vs, rfl, h, rfl⟩
  | cons x xs ih =>
    intro l2 vs h
    rw [List.cons_append, promiseAll] at h
    cases hx : synth x with
    | error e => rw [hx] at h; cases h
    | ok b =>
      rw [hx] at h
      cases hr : promiseAll synth (xs ++ l2) with
      | error e => rw [hr] at h; cases h
      | ok bs =>
        rw [hr] at h
        cases h
        rcases ih l2 bs hr with ⟨v1, v2, h1, h2, hv⟩
        subst hv
        exact ⟨b :: v1, v2, by rw [promiseAll, hx, h1], h2, rfl⟩

theorem setSlot_none (vb : List β) (s : List (Option β)) (i : Nat)
    (h : vb.get? i = none) : setSlot vb s i = s := by
  unfold setSlot
  rw [h]

theorem setSlot_some (vb : List β) (s : List (Option β)) (i : Nat) (v : β)
    (h : vb.get? i = some v) : setSlot vb s i = s.set i (some v) := by
  unfold setSlot
  rw [h]

theorem setSlots_cons (vb : List β) (slots : List (Option β)) (i : Nat)
    (rest : List Nat) :
    setSlots vb slots (i :: rest) = setSlots vb (setSlot vb slots i) rest := rfl

theorem schedStep_ok_eq (b : List α) (synth : α → Except ε β)
    (slots : List (Option β)) (i : Nat) :
    schedStep b synth (Except.ok slots) i =
      match b.get? i with
      | none => Except.ok slots
      | some a =>
        match synth a with
        | Except.error e => Except.error e
        | Except.ok v => Except.ok (slots.set i (some v)) := rfl

theorem schedStep_ok_none (b : List α) (synth : α → Except ε β)
    (slots : List (Option β)) (i : Nat) (hb : b.get? i = none) :
    schedStep b synth (Except.ok slots) i = Except.ok slots := by
  rw [schedStep_ok_eq, hb]

theorem schedStep_ok_some (b : List α) (synth : α → Except ε β)
    (slots : List (Option β)) (i : Nat) (a : α) (v : β)
    (hb : b.get? i = some a) (hv : synth a = Except.ok v) :
    schedStep b synth (Except.ok slots) i = Except.ok (slots.set i (some v)) := by
  rw [schedStep_ok_eq, hb]
  show (match synth a with
        | Except.error e => Except.error e
        | Except.ok v => Except.ok (slots.set i (some v))) = _
  rw [hv]

theorem setSlot_length (vb : List β) (s : List (Option β)) (i : Nat) :
    (setSlot vb s i).length = s.length := by
  cases hv : vb.get? i with
  | none => rw [setSlot_none vb s i hv]
  | some v => rw [setSlot_some vb s i v hv, List.length_set]

theorem setSlots_length (vb : List β) :
    ∀ (order : List Nat) (slots : List (Option β)),
      (setSlots vb slots order).length = slots.length := by
  intro order
  induction order with
  | nil => intro slots; rfl
  | cons i rest ih =>
    intro slots
    rw [setSlots_cons, ih (setSlot vb slots i), setSlot_length]

theorem setSlots_stable (vb : List β) :
    ∀ (order : List Nat) (slots : List (Option β)) (j : Nat) (v : β),
      vb.get? j = some v → slots.get? j = some (some v) →
      (setSlots vb slots order).get? j = some (some v) := by
  intro order
  induction order with
  | nil => intro slots j v _ h2; exact h2
  | cons i rest ih =>
    intro slots j v h1 h2
    rw [setSlots_cons]
    by_cases hij : i = j
    · subst hij
      rw [setSlot_some vb slots i v h1]
      refine ih (slots.set i (some v)) i v h1 ?_
      have hlt : i < slots.length := by
        by_contra hge
        rw [List.get?_len_le (by omega)] at h2
        cases h2
      exact List.get?_set_eq_of_lt _ hlt
    · cases hv : vb.get? i with
      | none =>
        rw [setSlot_none vb slots i hv]
        exact ih slots j v h1 h2
      | some w =>
        rw [setSlot_some vb slots i w hv]
        refine ih (slots.set i (some w)) j v h1 ?_
        rw [List.get?_set_ne _ _ hij]
        exact h2

theorem setSlots_covers (vb : List β) :
    ∀ (order : List Nat) (slots : List (Option β)) (j : Nat) (v : β),
      j ∈ order → vb.get? j = some v → slots.length = vb.length →
      (setSlots vb slots order).get? j = some (some v) := by
  intro order
  induction order with
  | nil => intro slots j v hj; cases hj
  | cons i rest ih =>
    intro slots j v hj h1 hlen
    rw [setSlots_cons]
    by_cases hr : j ∈ rest
    · exact ih (setSlot vb slots i) j v hr h1 ((setSlot_length vb slots i).trans hlen)
    · have hij : i = j := by
        rcases List.mem_cons.mp hj with h | h
        · exact h.symm
        · exact absurd h hr
      subst hij
      rw [setSlot_some vb slots i v h1]
      have hjlt : i < slots.length := by
        rw [hlen]
        by_contra hge
        rw [List.get?_len_le (by omega)] at h1
        cases h1
      exact setSlots_stable vb rest (slots.set i (some v)) i v h1
        (List.get?_set_eq_of_lt _ hjlt)

theorem setSlots_complete (vb : List β) (order : List Nat)
    (hcov : ∀ j < vb.length, j ∈ order) :
    setSlots vb (List.replicate vb.length (none : Option β)) order =
      vb.map some := by
  apply List.ext_get?
  intro n
  by_cases hn : n < vb.length
  · obtain ⟨v, hv⟩ : ∃ v, vb.get? n = some v := by
      cases h : vb.get? n with
      | none =>
        have := List.get?_eq_none.mp h
        omega
      | some v => exact ⟨v, rfl⟩
    rw [setSlots_covers vb order _ n v (hcov n hn) hv (by simp),
      List.get?_map, hv]
    rfl
  · rw [List.get?_len_le (l := vb.map some) (by simp; omega),
      List.get?_len_le]
    rw [setSlots_length]
    simp
    omega

theorem foldl_schedStep_ok (synth : α → Except ε β) (b : List α) (vb : List β)
    (hlen : vb.length = b.length)
    (hspec : ∀ (i : Nat) (a : α), b.get? i = some a →
      ∃ v, synth a = Except.ok v ∧ vb.get? i = some v) :
    ∀ (order : List Nat) (slots : List (Option β)),
      order.foldl (schedStep b synth) (Except.ok slots) =
        Except.ok (setSlots vb slots order) := by
  intro order
  induction order with
  | nil => intro slots; rfl
  | cons i rest ih =>
    intro slots
    rw [List.foldl_cons, setSlots_cons]
    cases hb : b.get? i with
    | none =>
      have hvb : vb.get? i = none := by
        rw [List.get?_eq_none] at hb ⊢
        omega
      rw [schedStep_ok_none b synth slots i hb, setSlot_none vb slots i hvb]
      exact ih slots
    | some a =>
      rcases hspec i a hb with ⟨v, hv, hvb⟩
      rw [schedStep_ok_some b synth slots i a v hb hv,
        setSlot_some vb slots i v hvb]
      exact ih (slots.set i (some v))

theorem promiseAllSched_eq_promiseAll (synth : α → Except ε β) (b : List α)
    (vb : List β) (order : List Nat)
    (h : promiseAll synth b = Except.ok vb)
    (hcov : ∀ j < b.length, j ∈ order) :
    promiseAllSched synth b order = Except.ok vb := by
  have hlen := promiseAll_ok_length synth b vb h
  unfold promiseAllSched
  rw [show List.replicate b.length (none : Option β) =
      List.replicate vb.length (none : Option β) by rw [hlen]]
  rw [foldl_schedStep_ok synth b vb hlen (promiseAll_ok_get? synth b vb h) order]
  rw [setSlots_complete vb order (fun j hj => hcov j (by omega))]
  simp

theorem toBatchesAux_flatten (conc : Nat) (hconc : 0 < conc) :
    ∀ (fuel : Nat) (l : List α), l.length ≤ fuel →
      (toBatchesAux conc fuel l).flatten = l := by
  intro fuel
  induction fuel with
  | zero =>
    intro l h
    have : l = [] := List.length_eq_zero.mp (Nat.le_zero.mp h)
    subst this
    rfl
  | succ fuel ih =>
    intro l h
    cases l with
    | nil => rfl
    | cons x xs =>
      show (List.take conc (x :: xs) :: toBatchesAux conc fuel
        (List.drop conc (x :: xs))).flatten = _
      rw [List.flatten_cons, ih (List.drop conc (x :: xs))
        (by rw [List.length_drop]; omega), List.take_append_drop]

theorem toBatchesAux_size (conc : Nat) :
    ∀ (fuel : Nat) (l : List α), ∀ b ∈ toBatchesAux conc fuel l,
      b.length ≤ conc := by
  intro fuel
  induction fuel with
  | zero => intro l b hb; simp [toBatchesAux] at hb
  | succ fuel ih =>
    intro l b hb
    cases l with
    | nil => simp [toBatchesAux] at hb
    | cons x xs =>
      rcases List.mem_cons.mp hb with hb | hb
      · subst hb; exact List.length_take_le conc _
      · exact ih _ b hb

theorem getD_tail (l : List (List Nat)) (k : Nat) :
    l.tail.getD k [] = l.getD (k + 1) [] := by
  cases l <;> rfl

theorem runBatchesSched_eq (synth : α → Except ε β) (conc : Nat)
    (hconc : 0 < conc) :
    ∀ (fuel : Nat) (l : List α) (orders : List (List Nat)) (vals : List β),
      l.length ≤ fuel →
      (∀ k < (toBatchesAux conc fuel l).length,
        ∀ j < ((toBatchesAux conc fuel l).getD k []).length,
        j ∈ orders.getD k []) →
      promiseAll synth l = Except.ok vals →
      runBatchesSched synth (toBatchesAux conc fuel l) orders =
        Except.ok vals := by
  intro fuel
  induction fuel with
  | zero =>
    intro l orders vals h _ hall
    have : l = [] := List.length_eq_zero.mp (Nat.le_zero.mp h)
    subst this
    cases hall
    rfl
  | succ fuel ih =>
    intro l orders vals h hcov hall
    cases l with
    | nil =>
      cases hall
      rfl
    | cons x xs =>
      rw [show toBatchesAux conc (fuel + 1) (x :: xs) =
          List.take conc (x :: xs) :: toBatchesAux conc fuel
            (List.drop conc (x :: xs)) from rfl]
      have hsplit := promiseAll_append synth (List.take conc (x :: xs))
        (List.drop conc (x :: xs)) vals
        (by rw [List.take_append_drop]; exact hall)
      rcases hsplit with ⟨v1, v2, h1, h2, hv⟩
      subst hv
      have hcov0 : ∀ j < (List.take conc (x :: xs)).length,
          j ∈ orders.headD [] := by
        intro j hj
        have := hcov 0 (Nat.succ_pos _) j hj
        rwa [show orders.getD 0 [] = orders.headD [] by cases orders <;> rfl]
          at this
      rw [runBatchesSched,
        promiseAllSched_eq_promiseAll synth _ v1 (orders.headD []) h1 hcov0,
        ih (List.drop conc (x :: xs)) orders.tail v2
          (by rw [List.length_drop]; omega)
          (by
            intro k hk j hj
            rw [getD_tail]
            exact hcov (k + 1) (Nat.succ_lt_succ hk) j hj)
          h2]

/-- Claim C1: for every chunk list and every concurrency limit ≥ 1, the
buffered pipeline (`getVoice`) partitions the chunks into consecutive
batches of size ≤ the limit, processes the batches sequentially, and — for
every completion schedule that settles each batch's promises in any order —
its final payload is the concatenation of the per-chunk synthesis results in
exactly the input chunk order. -/
theorem getVoice_ordered (synth : α → Except ε (List Nat)) (chunks : List α)
    (conc : Nat) (orders : List (List Nat)) (vals : List (List Nat))
    (hconc : 0 < conc)
    (hcov : ∀ k < (toBatches conc chunks).length,
      ∀ j < ((toBatches conc chunks).getD k []).length,
      j ∈ orders.getD k [])
    (hall : promiseAll synth chunks = Except.ok vals) :
    getVoicePayload synth chunks conc orders = Except.ok vals.flatten ∧
    (toBatches conc chunks).flatten = chunks ∧
    ∀ b ∈ toBatches conc chunks, b.length ≤ conc := by
  refine ⟨?_, toBatchesAux_flatten conc hconc chunks.length chunks le_rfl,
    fun b hb => toBatchesAux_size conc chunks.length chunks b hb⟩
  unfold getVoicePayload toBatches
  rw [runBatchesSched_eq synth conc hconc chunks.length chunks orders vals
    le_rfl hcov hall]

/-- Witness for C1: three chunks, concurrency 2, with the first batch's two
calls completing in reversed real-time order; the payload is still the
in-order concatenation. -/
theorem getVoice_ordered_witness :
    getVoicePayload synthLen [['a'], ['b', 'b'], ['c']] 2 [[1, 0], [0]] =
      Except.ok ([[1], [2], [1]] : List (List Nat)).flatten :=
  (getVoice_ordered synthLen [['a'], ['b', 'b'], ['c']] 2 [[1, 0], [0]]
    [[1], [2], [1]] (by decide) (by decide) rfl).1

/-! ## Lemmas about the streaming pipeline and fail-fast behaviour -/

theorem except_isOk_false_iff (x : Except ε γ) :
    x.isOk = false ↔ ∃ e, x = Except.error e := by
  cases x <;> simp [Except.isOk, Except.toBool]

theorem promiseAll_ok_of_forall (synth : α → Except ε β) :
    ∀ l : List α, (∀ c ∈ l, (synth c).isOk = true) →
      ∃ vals, promiseAll synth l = Except.ok vals := by
  intro l
  induction l with
  | nil => intro _; exact ⟨[], rfl⟩
  | cons x xs ih =>
    intro h
    cases hx : synth x with
    | error e =>
      have := h x (List.mem_cons_self _ _)
      rw [hx] at this
      cases this
    | ok b =>
      rcases ih (fun c hc => h c (List.mem_cons_of_mem _ hc)) with ⟨vals, hv⟩
      exact ⟨b :: vals, by rw [promiseAll, hx, hv]⟩

theorem promiseAll_isOk_false_of_mem (synth : α → Except ε β) :
    ∀ (l : List α) (c : α), c ∈ l → (synth c).isOk = false →
      (promiseAll synth l).isOk = false := by
  intro l
  induction l with
  | nil => intro c hc; cases hc
  | cons x xs ih =>
    intro c hc hcf
    cases hx : synth x with
    | error e =>
      rw [promiseAll, hx]
      rfl
    | ok b =>
      rcases List.mem_cons.mp hc with hcx | hcx
      · subst hcx
        rw [hx] at hcf
        cases hcf
      · rw [promiseAll, hx]
        have := ih c hcx hcf
        cases hr : promiseAll synth xs with
        | error e => rfl
        | ok vals =>
          rw [hr] at this
          cases this

theorem dispatchedBatches_append (t1 t2 : List (Ev α β)) :
    dispatchedBatches (t1 ++ t2) =
      dispatchedBatches t1 ++ dispatchedBatches t2 := by
  induction t1 with
  | nil => rfl
  | cons e t ih => cases e <;> simp [dispatchedBatches, ih]

theorem dispatchedBatches_writes (vals : List β) :
    dispatchedBatches ((vals.map Ev.write : List (Ev α β))) = [] := by
  induction vals with
  | nil => rfl
  | cons v vs ih => simpa [dispatchedBatches] using ih

theorem pipeEvents_cons_err (synth : α → Except ε β) (b : List α)
    (bs : List (List α)) (e : ε) (he : promiseAll synth b = Except.error e) :
    pipeEvents synth (b :: bs) = ([Ev.dispatch b, Ev.abort], false) := by
  show (match promiseAll synth b with
    | Except.error _ => ([Ev.dispatch b, Ev.abort], false)
    | Except.ok vals =>
      let rest := pipeEvents synth bs
      (Ev.dispatch b :: (vals.map Ev.write ++ rest.1), rest.2)) = _
  rw [he]

theorem pipeEvents_cons_ok (synth : α → Except ε β) (b : List α)
    (bs : List (List α)) (vals : List β)
    (hv : promiseAll synth b = Except.ok vals) :
    pipeEvents synth (b :: bs) =
      (Ev.dispatch b :: (vals.map Ev.write ++ (pipeEvents synth bs).1),
        (pipeEvents synth bs).2) := by
  show (match promiseAll synth b with
    | Except.error _ => ([Ev.dispatch b, Ev.abort], false)
    | Except.ok vals =>
      let rest := pipeEvents synth bs
      (Ev.dispatch b :: (vals.map Ev.write ++ rest.1), rest.2)) = _
  rw [hv]

theorem runBatchesP_cons_err (synth : α → Except ε β) (b : List α)
    (bs : List (List α)) (e : ε) (he : promiseAll synth b = Except.error e) :
    runBatchesP synth (b :: bs) = Except.error e := by
  show (match promiseAll synth b with
    | Except.error e => Except.error e
    | Except.ok vals =>
      match runBatchesP synth bs with
      | Except.error e => Except.error e
      | Except.ok rest => Except.ok (vals ++ rest)) = _
  rw [he]

theorem runBatchesP_cons_ok (synth : α → Except ε β) (b : List α)
    (bs : List (List α)) (vals : List β)
    (hv : promiseAll synth b = Except.ok vals) :
    runBatchesP synth (b :: bs) =
      match runBatchesP synth bs with
      | Except.error e => Except.error e
      | Except.ok rest => Except.ok (vals ++ rest) := by
  show (match promiseAll synth b with
    | Except.error e => Except.error e
    | Except.ok vals =>
      match runBatchesP synth bs with
      | Except.error e => Except.error e
      | Except.ok rest => Except.ok (vals ++ rest)) = _
  rw [hv]

theorem pipeEvents_fail (synth : α → Except ε β) :
    ∀ (k : Nat) (bs : List (List α)),
      k < bs.length →
      (∃ c ∈ bs.getD k [], (synth c).isOk = false) →
      (∀ k' < k, ∀ c ∈ bs.getD k' [], (synth c).isOk = true) →
      (pipeEvents synth bs).2 = false ∧
      Ev.abort ∈ (pipeEvents synth bs).1 ∧
      dispatchedBatches (pipeEvents synth bs).1 = bs.take (k + 1) ∧
      (runBatchesP synth bs).isOk = false := by
  intro k
  induction k with
  | zero =>
    intro bs hk hfail _
    cases bs with
    | nil => simp at hk
    | cons b rest =>
      rcases hfail with ⟨c, hc, hcf⟩
      have hpa : (promiseAll synth b).isOk = false :=
        promiseAll_isOk_false_of_mem synth b c hc hcf
      rcases (except_isOk_false_iff _).mp hpa with ⟨e, he⟩
      rw [pipeEvents_cons_err synth b rest e he,
        runBatchesP_cons_err synth b rest e he]
      refine ⟨rfl, by simp, ?_, rfl⟩
      simp [dispatchedBatches]
  | succ k ih =>
    intro bs hk hfail hprev
    cases bs with
    | nil => simp at hk
    | cons b rest =>
      have hb_ok : ∀ c ∈ b, (synth c).isOk = true :=
        hprev 0 (Nat.succ_pos _)
      rcases promiseAll_ok_of_forall synth b hb_ok with ⟨vals, hv⟩
      have ihr := ih rest (by simpa using hk) hfail
        (fun k' hk' => hprev (k' + 1) (Nat.succ_lt_succ hk'))
      rw [pipeEvents_cons_ok synth b rest vals hv,
        runBatchesP_cons_ok synth b rest vals hv]
      refine ⟨ihr.1, ?_, ?_, ?_⟩
      · exact List.mem_cons_of_mem _ (List.mem_append.mpr (Or.inr ihr.2.1))
      · show b :: dispatchedBatches (vals.map Ev.write ++ (pipeEvents synth rest).1) =
          b :: rest.take (k + 1)
        rw [dispatchedBatches_append, dispatchedBatches_writes, List.nil_append,
          ihr.2.2.1]
      · rcases (except_isOk_false_iff _).mp ihr.2.2.2 with ⟨e, he⟩
        rw [he]
        rfl

/-- Claim C2: if any synthesis call within batch `k` fails (and prior
batches succeed), the pipeline fails: the trace dispatches exactly the
batches up to and including batch `k` — no chunk of batch `k+1` or later is
ever dispatched — the streaming writer is aborted (not only closed), and the
buffered batch loop likewise ends in failure. -/
theorem pipeChunksToStream_failFast (synth : α → Except ε β) (chunks : List α)
    (conc k : Nat)
    (hk : k < (toBatches conc chunks).length)
    (hfail : ∃ c ∈ (toBatches conc chunks).getD k [], (synth c).isOk = false)
    (hprev : ∀ k' < k, ∀ c ∈ (toBatches conc chunks).getD k' [],
      (synth c).isOk = true) :
    (pipeChunksToStreamTrace synth chunks conc).2 = false ∧
    Ev.abort ∈ (pipeChunksToStreamTrace synth chunks conc).1 ∧
    dispatchedBatches (pipeChunksToStreamTrace synth chunks conc).1 =
      (toBatches conc chunks).take (k + 1) ∧
    (runBatchesP synth (toBatches conc chunks)).isOk = false := by
  have h := pipeEvents_fail synth k (toBatches conc chunks) hk hfail hprev
  unfold pipeChunksToStreamTrace
  refine ⟨h.1, List.mem_append.mpr (Or.inl h.2.1), ?_, h.2.2.2⟩
  rw [dispatchedBatches_append, h.2.2.1]
  simp [dispatchedBatches]

/-- Witness for C2: three one-chunk batches with the second chunk failing;
only batches 1 and 2 are dispatched, and the stream is aborted. -/
theorem pipeChunksToStream_failFast_witness :
    (pipeChunksToStreamTrace synthFailB [['a'], ['b'], ['c']] 1).2 = false ∧
    Ev.abort ∈ (pipeChunksToStreamTrace synthFailB [['a'], ['b'], ['c']] 1).1 ∧
    dispatchedBatches (pipeChunksToStreamTrace synthFailB [['a'], ['b'], ['c']] 1).1 =
      (toBatches 1 [['a'], ['b'], ['c']]).take 2 ∧
    (runBatchesP synthFailB (toBatches 1 [['a'], ['b'], ['c']])).isOk = false :=
  pipeChunksToStream_failFast synthFailB [['a'], ['b'], ['c']] 1 1
    (by decide) (by decide) (by decide)

theorem pipeEvents_all_ok (synth : α → Except ε β) :
    ∀ bs : List (List α), (∀ b ∈ bs, ∀ c ∈ b, (synth c).isOk = true) →
      pipeEvents synth bs =
        ((bs.map (fun b =>
          match promiseAll synth b with
          | Except.ok vals => Ev.dispatch b :: vals.map Ev.write
          | Except.error _ => [])).flatten, true) := by
  intro bs
  induction bs with
  | nil => intro _; rfl
  | cons b rest ih =>
    intro h
    rcases promiseAll_ok_of_forall synth b
      (h b (List.mem_cons_self _ _)) with ⟨vals, hv⟩
    rw [pipeEvents_cons_ok synth b rest vals hv,
      ih (fun b' hb' => h b' (List.mem_cons_of_mem _ hb'))]
    rw [List.map_cons, List.flatten_cons]
    rw [show (match promiseAll synth b with
      | Except.ok vals => Ev.dispatch b :: vals.map Ev.write
      | Except.error _ => ([] : List (Ev α β))) =
        Ev.dispatch b :: vals.map Ev.write by rw [hv]]
    rfl

theorem toBatchesAux_mem_mem (conc : Nat) :
    ∀ (fuel : Nat) (l : List α) (b : List α) (c : α),
      b ∈ toBatchesAux conc fuel l → c ∈ b → c ∈ l := by
  intro fuel
  induction fuel with
  | zero => intro l b c hb; simp [toBatchesAux] at hb
  | succ fuel ih =>
    intro l b c hb hc
    cases l with
    | nil => simp [toBatchesAux] at hb
    | cons x xs =>
      rcases List.mem_cons.mp hb with hb | hb
      · subst hb
        exact List.mem_of_mem_take hc
      · exact List.mem_of_mem_drop (ih _ b c hb hc)

/-- Counterexample to claim C5 as stated: with three always-succeeding
chunks and concurrency 2, the full trace of `streamVoice` places the
`respond` event (the streaming `Response` being produced) strictly after
`close` (the end of the whole pipeline) — the `await` in `streamVoice` means
the Response is not produced before the final batch resolves. -/
theorem streamVoice_respond_not_before_close :
    streamVoiceTrace synthLen [['a'], ['b', 'b'], ['c']] 2 =
      [Ev.dispatch [['a'], ['b', 'b']], Ev.write [1], Ev.write [2],
       Ev.dispatch [['c']], Ev.write [1], Ev.close, Ev.respond] ∧
    ¬ ((streamVoiceTrace synthLen [['a'], ['b', 'b'], ['c']] 2).findIdx
        (fun e => e == Ev.respond) <
      (streamVoiceTrace synthLen [['a'], ['b', 'b'], ['c']] 2).findIdx
        (fun e => e == Ev.close)) := by
  decide

/-- Claim C5 (amended): in streaming mode each batch's audio is written to
the output channel as soon as that batch completes and before any later
batch is dispatched; however, `streamVoice` awaits the entire pipeline, so
the streaming `Response` (`respond`) is produced only after the final batch
has resolved and the writer closed — the stream is not made available to the
caller before the whole input has finished synthesizing. -/
theorem streamVoice_trace_shape (synth : α → Except ε β) (chunks : List α)
    (conc : Nat) (hok : ∀ c ∈ chunks, (synth c).isOk = true) :
    streamVoiceTrace synth chunks conc =
      ((toBatches conc chunks).map (fun b =>
        match promiseAll synth b with
        | Except.ok vals => Ev.dispatch b :: vals.map Ev.write
        | Except.error _ => [])).flatten ++ [Ev.close, Ev.respond] := by
  have hall : ∀ b ∈ toBatches conc chunks, ∀ c ∈ b, (synth c).isOk = true :=
    fun b hb c hc => hok c (toBatchesAux_mem_mem conc chunks.length chunks b c hb hc)
  unfold streamVoiceTrace pipeChunksToStreamTrace
  rw [pipeEvents_all_ok synth _ hall]
  simp

/-- Witness for amended C5 at a concrete input. -/
theorem streamVoice_trace_shape_witness :
    streamVoiceTrace synthLen [['a'], ['b', 'b'], ['c']] 2 =
      ((toBatches 2 [['a'], ['b', 'b'], ['c']]).map (fun b =>
        match promiseAll synthLen b with
        | Except.ok vals => Ev.dispatch b :: vals.map Ev.write
        | Except.error _ => [])).flatten ++ [Ev.close, Ev.respond] :=
  streamVoice_trace_shape synthLen [['a'], ['b', 'b'], ['c']] 2 (by decide)

end Workers

